import Mathlib

/-!
Verification of the track-orchestration core of AudioMaster
(`src/composables/useMastering.js`).

The JavaScript module keeps a single reactive state object and mutates it
through a fixed set of exposed operations.  We embed that state as the record
`MState`, each exposed function as a pure Lean function `MState → MState`
(stage operations additionally take an `Env`, the oracle standing for the
Tauri `invoke` remote calls, and return a trace of the status/progress
assignments they perform, so that transition-ordering claims are statable).
-/

namespace AudioMaster

/-- The six track lifecycle states of the source
(`idle | analyzing | analyzed | mastering | done | error`). -/
inductive Status where
  | idle
  | analyzing
  | analyzed
  | mastering
  | done
  | error
deriving DecidableEq, Repr

/-- The `AnalysisResult` payload shape of the engine's `analyze_file` call
(opaque to the orchestrator beyond its existence; floats as rationals). -/
structure AnalysisResult where
  lufs_integrated : Rat := 0
  lufs_short_term_max : Rat := 0
  rms_db : Rat := 0
  peak_db : Rat := 0
  true_peak_db : Rat := 0
  dynamic_range_db : Rat := 0
  stereo_width : Rat := 0
  sample_rate : Nat := 0
  channels : Nat := 0
  duration_secs : Rat := 0
deriving DecidableEq, Repr

/-- The call `get_waveform_data` returns a sequence of `[min, max]` sample pairs. -/
abbrev Waveform := List (Rat × Rat)

/-- The `MasterResult` payload of the engine's `master_file` call. -/
structure MasterResult where
  output_path : String
  backend_used : String := ""
  post_analysis : Option AnalysisResult := none
  pre_analysis : Option AnalysisResult := none
deriving DecidableEq, Repr

/-- One imported audio file, as pushed by `addTracks`. Fields that the JS
object acquires later (`postAnalysis`, `postWaveform`) are `Option`s. -/
structure Track where
  id : Nat
  path : String
  name : String
  status : Status
  analysis : Option AnalysisResult := none
  waveform : Option Waveform := none
  result : Option MasterResult := none
  postAnalysis : Option AnalysisResult := none
  postWaveform : Option Waveform := none
  error : Option String := none
deriving DecidableEq, Repr

/-- The mastering request assembled by `buildRequest`. -/
structure MasterRequest where
  input_path : String
  output_path : Option String
  reference_path : Option String
  backend : String
  ai_provider : Option String
  bit_depth : Nat
  format : String
  target_lufs : Rat
  preset : String
  no_limiter : Bool
deriving DecidableEq, Repr

/-- The module-level reactive `state` object (claim-relevant fields), plus
the module-level `trackIdCounter`. -/
structure MState where
  tracks : List Track
  selectedTrackId : Option Nat
  referenceFile : Option String
  processing : Bool
  processingMessage : String
  processingProgress : Rat
  error : Option String
  selectedBackend : String
  selectedPreset : String
  selectedProvider : String
  bitDepth : Nat
  outputFormat : String
  targetLufs : Rat
  noLimiter : Bool
  trackIdCounter : Nat
deriving DecidableEq, Repr

/-- The initial value of the reactive state at module load. -/
def initState : MState where
  tracks := []
  selectedTrackId := none
  referenceFile := none
  processing := false
  processingMessage := ""
  processingProgress := 0
  error := none
  selectedBackend := "auto"
  selectedPreset := "streaming"
  selectedProvider := "ollama"
  bitDepth := 24
  outputFormat := "wav"
  targetLufs := -14
  noLimiter := false
  trackIdCounter := 0

/-- Oracle for the three remote `invoke` calls; `Except.error` models a
rejected promise. -/
structure Env where
  analyzeFile : String → Except String AnalysisResult
  getWaveformData : String → Nat → Except String Waveform
  masterFile : MasterRequest → Except String MasterResult

/-- Trace events: every assignment to a track's `status` (recording the old
and the new value) and every assignment to `state.processingProgress`. -/
inductive Ev where
  | status (id : Nat) (old new : Status)
  | progress (value : Rat)
deriving DecidableEq, Repr

/-- The progress values assigned during a trace, in order. -/
def progressEvents (evs : List Ev) : List Rat :=
  evs.filterMap fun ev =>
    match ev with
    | .progress q => some q
    | .status _ _ _ => none

/-! ## Track Registry -/

/-- JS truthiness of `state.selectedTrackId` as used by
`!state.selectedTrackId`: `null` and the number `0` are falsy. -/
def idIsFalsy : Option Nat → Bool
  | none => true
  | some n => n == 0

/-- JS `String.split` with a one-character separator, at the char level
(`"".split(c)` is `[""]`, and a trailing separator yields a final `""`). -/
def splitOnChar (c : Char) : List Char → List (List Char)
  | [] => [[]]
  | a :: rest =>
    let r := splitOnChar c rest
    if a = c then [] :: r
    else
      match r with
      | [] => [[a]]
      | seg :: segs => (a :: seg) :: segs

/-- Source expression `p.split("/").pop().split("\\").pop()` — the display name is the last
path segment (both separators are single characters). -/
def deriveName (p : String) : String :=
  String.mk ((splitOnChar '\\'
    ((splitOnChar '/' p.toList).getLastD [])).getLastD [])

/-- The track object `addTracks` pushes for a new path `p`
(`id: ++trackIdCounter`, derived name, `status: "idle"`, payloads null). -/
def freshTrack (st : MState) (p : String) : Track :=
  { id := st.trackIdCounter + 1
    path := p
    name := deriveName p
    status := .idle }

/-- Body of the `for (const p of newPaths)` loop of `addTracks`: skip the
path if a track with that exact path exists, else push a fresh track. -/
def addTrack1 (st : MState) (p : String) : MState :=
  if st.tracks.any (fun t => decide (t.path = p)) then st
  else
    { st with
      trackIdCounter := st.trackIdCounter + 1,
      tracks := st.tracks ++ [freshTrack st p] }

/-- The trailing selection repair of `addTracks`
(`if (!state.selectedTrackId && state.tracks.length > 0) ...`). -/
def fixSelection (st : MState) : MState :=
  match st.tracks with
  | [] => st
  | t :: _ =>
    if idIsFalsy st.selectedTrackId then { st with selectedTrackId := some t.id }
    else st

/-- Function `addTracks(paths)`: de-duplicating import, then select the first track
if nothing was selected. -/
def addTracks (paths : List String) (st : MState) : MState :=
  fixSelection (paths.foldl addTrack1 st)

/-- Function `removeTrack(id)`: splice out the first track with this id (no-op when
absent), then repair the selection if the removed id was selected. -/
def removeTrack (id : Nat) (st : MState) : MState :=
  let st1 :=
    match st.tracks.findIdx? (fun t => decide (t.id = id)) with
    | some idx => { st with tracks := st.tracks.eraseIdx idx }
    | none => st
  if st1.selectedTrackId = some id then
    { st1 with
      selectedTrackId :=
        match st1.tracks with
        | [] => none
        | t :: _ => some t.id }
  else st1

/-- Function `selectTrack(id)`: unconditional assignment, no validation. -/
def selectTrack (id : Option Nat) (st : MState) : MState :=
  { st with selectedTrackId := id }

/-- Function `setReferenceFile(path)`. -/
def setReferenceFile (p : Option String) (st : MState) : MState :=
  { st with referenceFile := p }

/-- Function `clearAll()`. -/
def clearAll (st : MState) : MState :=
  { st with tracks := [], selectedTrackId := none, referenceFile := none,
            error := none }

/-- The computed `selectedTrack`: first track whose id `===` the selected
id, or null. -/
def selectedTrack (st : MState) : Option Track :=
  st.tracks.find? (fun t => decide (some t.id = st.selectedTrackId))

/-- Index form of `selectedTrack` (the JS value is a reference into
`state.tracks`; in the embedding we address it by position). -/
def selectedIdx (st : MState) : Option Nat :=
  st.tracks.findIdx? (fun t => decide (some t.id = st.selectedTrackId))

/-- The computed `hasTracks`. -/
def hasTracks (st : MState) : Bool :=
  decide (0 < st.tracks.length)

/-- The computed `allAnalyzed`. -/
def allAnalyzed (st : MState) : Bool :=
  decide (0 < st.tracks.length) &&
    st.tracks.all fun t => decide (t.status ≠ .idle ∧ t.status ≠ .analyzing)

/-- The computed `hasAnyResult`. -/
def hasAnyResult (st : MState) : Bool :=
  st.tracks.any fun t => decide (t.status = .done)

/-! ## Stage Executor -/

/-- Whether both remote calls of an analyze attempt on `path` succeed
(`Promise.all` join semantics). -/
def analyzeOk (env : Env) (path : String) : Bool :=
  (env.analyzeFile path).toOption.isSome &&
    (env.getWaveformData path 2000).toOption.isSome

/-- Function `analyzeTrack(track)`: set `analyzing`, clear `error`, await both calls;
on joint success commit `analysis` and `waveform` together and set
`analyzed`; on either failure set `error` status and a wrapped message. -/
def analyzeTrack (env : Env) (t : Track) : Track × List Ev :=
  let t1 := { t with status := Status.analyzing, error := none }
  let entry := Ev.status t.id t.status .analyzing
  match env.analyzeFile t.path, env.getWaveformData t.path 2000 with
  | .ok a, .ok w =>
    ({ t1 with analysis := some a, waveform := some w, status := .analyzed },
     [entry, Ev.status t.id .analyzing .analyzed])
  | .error e, _ =>
    ({ t1 with status := Status.error, error := some ("Analysis failed: " ++ e) },
     [entry, Ev.status t.id .analyzing .error])
  | .ok _, .error e =>
    ({ t1 with status := Status.error, error := some ("Analysis failed: " ++ e) },
     [entry, Ev.status t.id .analyzing .error])

/-- JS `x || null` on a string-or-null value: the empty string is falsy. -/
def jsOrNull : Option String → Option String
  | none => none
  | some s => if s = "" then none else some s

/-- Function `buildRequest(track, outputPath)` — pure assembly of the request from
the track, the global master options and the reference file. -/
def buildRequest (st : MState) (t : Track) (outputPath : Option String) :
    MasterRequest where
  input_path := t.path
  output_path := jsOrNull outputPath
  reference_path := jsOrNull st.referenceFile
  backend := st.selectedBackend
  ai_provider :=
    if st.selectedBackend = "ai" then some st.selectedProvider else none
  bit_depth := st.bitDepth
  format := st.outputFormat
  target_lufs := st.targetLufs
  preset := st.selectedPreset
  no_limiter := st.noLimiter

/-- Function `masterTrack(track, outputPath)`: set `mastering`, clear `error`, issue
the master call; on success store `result`, set `done`, and when the result
carries a `post_analysis` do the best-effort post-waveform fetch (its
failure is swallowed); on failure set `error` status and message. -/
def masterTrack (env : Env) (st : MState) (t : Track)
    (outputPath : Option String) : Track × List Ev :=
  let entry := Ev.status t.id t.status .mastering
  let t1 := { t with status := Status.mastering, error := none }
  match env.masterFile (buildRequest st t outputPath) with
  | .ok r =>
    let t2 := { t1 with result := some r, status := .done }
    let evs := [entry, Ev.status t.id .mastering .done]
    match r.post_analysis with
    | some pa =>
      let t3 := { t2 with postAnalysis := some pa }
      match env.getWaveformData r.output_path 2000 with
      | .ok w => ({ t3 with postWaveform := some w }, evs)
      | .error _ => (t3, evs)
    | none => (t2, evs)
  | .error e =>
    ({ t1 with status := Status.error, error := some ("Mastering failed: " ++ e) },
     [entry, Ev.status t.id .mastering .error])

/-- Run `analyzeTrack` on the registry track at position `idx`, writing the
mutated track back (the JS loop mutates the snapshot reference in place). -/
def analyzeTrackAt (env : Env) (idx : Nat) (st : MState) : MState × List Ev :=
  match st.tracks[idx]? with
  | none => (st, [])
  | some t =>
    ({ st with tracks := st.tracks.set idx (analyzeTrack env t).1 },
     (analyzeTrack env t).2)

/-- Run `masterTrack` on the registry track at position `idx`. -/
def masterTrackAt (env : Env) (idx : Nat) (outputPath : Option String)
    (st : MState) : MState × List Ev :=
  match st.tracks[idx]? with
  | none => (st, [])
  | some t =>
    ({ st with tracks := st.tracks.set idx (masterTrack env st t outputPath).1 },
     (masterTrack env st t outputPath).2)

/-- Positions of the pending snapshot of `analyzeAll`:
tracks whose status is `idle` or `error`. -/
def pendingIdxs (ts : List Track) : List Nat :=
  (List.range ts.length).filter fun i =>
    match ts[i]? with
    | some t => decide (t.status = .idle ∨ t.status = .error)
    | none => false

/-- Positions of the target snapshot of `masterAll`:
tracks whose status is `analyzed` or `error`. -/
def targetIdxs (ts : List Track) : List Nat :=
  (List.range ts.length).filter fun i =>
    match ts[i]? with
    | some t => decide (t.status = .analyzed ∨ t.status = .error)
    | none => false

/-- The progress value `((i+1)/N)*100` assigned before the 0-indexed step
`i` of a batch of `N`. -/
def progVal (i N : Nat) : Rat :=
  (((i : Rat) + 1) / (N : Rat)) * 100

/-- The batch-state mutation done before step `i` of `analyzeAll`. -/
def analyzeStepState (st : MState) (i N : Nat) : MState :=
  { st with
    processingMessage :=
      "Analyzing " ++ toString (i + 1) ++ " of " ++ toString N ++ "...",
    processingProgress := progVal i N }

/-- The `for` loop of `analyzeAll`: before each step set the 1-indexed
message and `((i+1)/N)*100` progress, then analyze the snapshot track. -/
def analyzeAllLoop (env : Env) (N : Nat) :
    List Nat → Nat → MState → MState × List Ev
  | [], _, st => (st, [])
  | idx :: rest, i, st =>
    let r1 := analyzeTrackAt env idx (analyzeStepState st i N)
    let r2 := analyzeAllLoop env N rest (i + 1) r1.1
    (r2.1, Ev.progress (progVal i N) :: (r1.2 ++ r2.2))

/-- Function `analyzeAll()`: mark processing, snapshot the pending set, run the loop,
then clear `processing`, `processingMessage`, `processingProgress`. -/
def analyzeAll (env : Env) (st : MState) : MState × List Ev :=
  let st0 := { st with processing := true, error := none }
  let idxs := pendingIdxs st0.tracks
  let r := analyzeAllLoop env idxs.length idxs 0 st0
  ({ r.1 with processing := false, processingMessage := "",
              processingProgress := 0 },
   r.2 ++ [Ev.progress 0])

/-- Function `analyzeSelected()`: no-op when no track matches the selection,
otherwise analyze the selected track under the processing flag. -/
def analyzeSelected (env : Env) (st : MState) : MState × List Ev :=
  match selectedIdx st with
  | none => (st, [])
  | some i =>
    match st.tracks[i]? with
    | none => (st, [])
    | some t =>
      let st1 := { st with
        processing := true,
        processingMessage := "Analyzing " ++ t.name ++ "..." }
      let r := analyzeTrackAt env i st1
      ({ r.1 with processing := false, processingMessage := "" }, r.2)

/-- The batch-state mutation done before step `i` of `masterAll` (the
message quotes the snapshot track's name). -/
def masterStepState (st : MState) (idx i N : Nat) : MState :=
  { st with
    processingMessage :=
      "Mastering " ++ toString (i + 1) ++ " of " ++ toString N ++ ": " ++
        (match st.tracks[idx]? with
         | some t => t.name
         | none => ""),
    processingProgress := progVal i N }

/-- The `for` loop of `masterAll` (no output-path override). -/
def masterAllLoop (env : Env) (N : Nat) :
    List Nat → Nat → MState → MState × List Ev
  | [], _, st => (st, [])
  | idx :: rest, i, st =>
    let r1 := masterTrackAt env idx none (masterStepState st idx i N)
    let r2 := masterAllLoop env N rest (i + 1) r1.1
    (r2.1, Ev.progress (progVal i N) :: (r1.2 ++ r2.2))

/-- Function `masterAll()`: mark processing, snapshot the `analyzed`/`error` targets,
run the loop, then clear the processing bookkeeping. -/
def masterAll (env : Env) (st : MState) : MState × List Ev :=
  let st0 := { st with processing := true, error := none }
  let idxs := targetIdxs st0.tracks
  let r := masterAllLoop env idxs.length idxs 0 st0
  ({ r.1 with processing := false, processingMessage := "",
              processingProgress := 0 },
   r.2 ++ [Ev.progress 0])

/-- Function `masterSelected(outputPath)`: no-op when no track matches the
selection, otherwise master the selected track under the processing flag. -/
def masterSelected (env : Env) (outputPath : Option String) (st : MState) :
    MState × List Ev :=
  match selectedIdx st with
  | none => (st, [])
  | some i =>
    match st.tracks[i]? with
    | none => (st, [])
    | some t =>
      let st1 := { st with
        processing := true,
        processingMessage := "Mastering " ++ t.name ++ "..." }
      let r := masterTrackAt env i outputPath st1
      ({ r.1 with processing := false, processingMessage := "" }, r.2)

/-! ## Exposed operations and operation sequences -/

/-- The exposed operations of the composable that touch the registry or the
stage pipeline.  `analyzeTrack`/`masterTrack` are exposed taking a track
reference; callers pass a registry track, addressed here by its id. -/
inductive Op where
  | addTracks (paths : List String)
  | removeTrack (id : Nat)
  | selectTrack (id : Option Nat)
  | setReferenceFile (p : Option String)
  | clearAll
  | analyzeTrack (id : Nat)
  | analyzeAll
  | analyzeSelected
  | masterTrack (id : Nat) (outputPath : Option String)
  | masterAll
  | masterSelected (outputPath : Option String)
deriving DecidableEq, Repr

/-- First position of the registry track with the given id. -/
def trackIdxById (ts : List Track) (id : Nat) : Option Nat :=
  ts.findIdx? fun t => decide (t.id = id)

/-- One exposed operation, with the oracle governing its remote calls. -/
def step (env : Env) (op : Op) (st : MState) : MState × List Ev :=
  match op with
  | .addTracks ps => (addTracks ps st, [])
  | .removeTrack id => (removeTrack id st, [])
  | .selectTrack id => (selectTrack id st, [])
  | .setReferenceFile p => (setReferenceFile p st, [])
  | .clearAll => (clearAll st, [])
  | .analyzeTrack id =>
    match trackIdxById st.tracks id with
    | some i => analyzeTrackAt env i st
    | none => (st, [])
  | .analyzeAll => analyzeAll env st
  | .analyzeSelected => analyzeSelected env st
  | .masterTrack id outputPath =>
    match trackIdxById st.tracks id with
    | some i => masterTrackAt env i outputPath st
    | none => (st, [])
  | .masterAll => masterAll env st
  | .masterSelected outputPath => masterSelected env outputPath st

/-- Run a sequence of exposed operations (each with its own oracle),
concatenating their traces. -/
def run : List (Env × Op) → MState → MState × List Ev
  | [], st => (st, [])
  | eo :: rest, st =>
    let r1 := step eo.1 eo.2 st
    let r2 := run rest r1.1
    (r2.1, r1.2 ++ r2.2)

/-! ## Concrete sample data (for witnesses and counterexamples) -/

/-- A sample analysis payload (all numeric fields zero). -/
def sampleAnalysis : AnalysisResult := {}

/-- A sample waveform payload. -/
def sampleWave : Waveform := [(0, 0)]

/-- A sample mastering result without a post-processing analysis. -/
def sampleResult : MasterResult := { output_path := "out.wav" }

/-- A sample mastering result carrying a post-processing analysis. -/
def sampleResultPost : MasterResult :=
  { output_path := "out.wav", post_analysis := some sampleAnalysis }

/-- Oracle on which every remote call succeeds. -/
def envOk : Env where
  analyzeFile := fun _ => .ok sampleAnalysis
  getWaveformData := fun _ _ => .ok sampleWave
  masterFile := fun _ => .ok sampleResult

/-- Oracle whose analysis-metrics call always rejects. -/
def envAnalyzeFail : Env :=
  { envOk with analyzeFile := fun _ => .error ("boom") }

/-- Oracle whose master call always rejects. -/
def envMasterFail : Env :=
  { envOk with masterFile := fun _ => .error ("mfail") }

/-- Oracle where mastering succeeds with a post-analysis but every waveform
fetch rejects. -/
def envPostWaveFail : Env where
  analyzeFile := fun _ => .ok sampleAnalysis
  getWaveformData := fun _ _ => .error ("wfail")
  masterFile := fun _ => .ok sampleResultPost

/-- Oracle whose analysis-metrics call rejects exactly on path `"b"`. -/
def envMid : Env :=
  { envOk with
    analyzeFile := fun p => if p = "b" then .error ("boom") else .ok sampleAnalysis }

/-- A freshly imported track, as `addTracks ["a.wav"]` creates it. -/
def sampleTrack : Track :=
  { id := 1, path := "a.wav", name := "a.wav", status := .idle }

/-! ## Claim-support definitions: invariants, guards and
operation sequences -/

/-- Number of registry tracks with a given path. -/
def pathCount (p : String) (ts : List Track) : Nat :=
  ts.countP fun t => decide (t.path = p)

/-- The registry after importing `a.wav`, then clearing the selection with
the exposed `selectTrack(null)`, then importing `b.wav`. -/
def c8State : MState :=
  addTracks ["b.wav"] (selectTrack none (addTracks ["a.wav"] initState))

/-- Registry well-formedness: ids are positive, and the selection is null
only on the empty registry and otherwise names a present track. -/
def SelectionInv (st : MState) : Prop :=
  (∀ t ∈ st.tracks, 1 ≤ t.id) ∧
  (st.selectedTrackId = none → st.tracks = []) ∧
  (∀ s, st.selectedTrackId = some s → ∃ t ∈ st.tracks, t.id = s)

/-- A registry operation of the exposed add/remove pair. -/
inductive RegOp where
  | add (paths : List String)
  | remove (id : Nat)
deriving DecidableEq, Repr

/-- Apply one registry operation. -/
def regStep : RegOp → MState → MState
  | .add ps, st => addTracks ps st
  | .remove id, st => removeTrack id st

/-- Run a sequence of registry operations. -/
def runReg : List RegOp → MState → MState
  | [], st => st
  | op :: rest, st => runReg rest (regStep op st)

/-- A three-track import whose middle track will fail analysis under
`envMid`. -/
def st3 : MState := addTracks ["a", "b", "c"] initState

/-- The middle track of `st3` as created by the import. -/
def trkB : Track := { id := 2, path := "b", name := "b", status := Status.idle }

/-- A one-track registry whose track is `analyzed` (a `masterAll` target). -/
def stAnalyzed : MState :=
  { initState with
    tracks := [{ id := 1, path := "a.wav", name := "a.wav",
                 status := Status.analyzed }],
    selectedTrackId := some 1, trackIdCounter := 1 }

/-- A trace is mastering-clean when every assignment of the `mastering`
status happens on a track whose previous status was `analyzed` or
`error`. -/
def MasterEntriesOk (evs : List Ev) : Prop :=
  ∀ (i : Nat) (old : Status), Ev.status i old Status.mastering ∈ evs →
    old = Status.analyzed ∨ old = Status.error

/-- Guard on an exposed operation: the per-track master entry points must
only be invoked on tracks whose status is `analyzed` or `error` (the batch
operations need no guard — `masterAll` filters its targets itself). -/
def masterGuardOK (st : MState) : Op → Prop
  | Op.masterTrack id _ => ∀ t ∈ st.tracks, t.id = id →
      t.status = Status.analyzed ∨ t.status = Status.error
  | Op.masterSelected _ => ∀ t ∈ st.tracks, some t.id = st.selectedTrackId →
      t.status = Status.analyzed ∨ t.status = Status.error
  | _ => True

/-- Every operation of the sequence satisfies its guard in the state it
executes in. -/
def GuardedFrom : MState → List (Env × Op) → Prop
  | _, [] => True
  | st, eo :: rest =>
    masterGuardOK st eo.2 ∧ GuardedFrom (step eo.1 eo.2 st).1 rest

/-! ## Claim C3: analyze attempt is all-or-nothing per track -/

/-- C3: on an analyze attempt, if either remote call fails the track ends in
`error` with a message wrapping the failure and neither `analysis` nor
`waveform` is assigned from this attempt; if both succeed, both payloads are
committed together and the status becomes `analyzed`. -/
theorem analyzeTrack_all_or_nothing (env : Env) (t : Track) :
    (analyzeOk env t.path = false →
      (analyzeTrack env t).1.status = Status.error ∧
      (∃ e, (analyzeTrack env t).1.error = some ("Analysis failed: " ++ e) ∧
        (env.analyzeFile t.path = .error e ∨
         env.getWaveformData t.path 2000 = .error e)) ∧
      (analyzeTrack env t).1.analysis = t.analysis ∧
      (analyzeTrack env t).1.waveform = t.waveform) ∧
    (analyzeOk env t.path = true →
      ∃ a w, env.analyzeFile t.path = .ok a ∧
        env.getWaveformData t.path 2000 = .ok w ∧
        (analyzeTrack env t).1 =
          { t with status := Status.analyzed, error := none,
                   analysis := some a, waveform := some w }) := by
  rcases h1 : env.analyzeFile t.path with e | a <;>
    rcases h2 : env.getWaveformData t.path 2000 with e2 | w <;>
      simp [analyzeTrack, analyzeOk, h1, h2, Except.toOption]
  exact ⟨e, rfl, Or.inl rfl⟩

/-- Witness for C3: a concrete failing attempt ends in `error` with the
payload fields untouched. -/
theorem analyzeTrack_all_or_nothing_witness :
    (analyzeTrack envAnalyzeFail sampleTrack).1.status = Status.error ∧
    (analyzeTrack envAnalyzeFail sampleTrack).1.analysis = none := by
  have h := (analyzeTrack_all_or_nothing envAnalyzeFail sampleTrack).1 (by decide)
  exact ⟨h.1, h.2.2.1.trans rfl⟩

/-! ## Claim C4: master failure leaves `result` unchanged -/

/-- C4: if the master remote call fails, the track ends in `error` with a
descriptive message and its `result` field is exactly what it was before
the attempt. -/
theorem masterTrack_failure_frame (env : Env) (st : MState) (t : Track)
    (outputPath : Option String) (e : String)
    (h : env.masterFile (buildRequest st t outputPath) = .error e) :
    (masterTrack env st t outputPath).1.status = Status.error ∧
    (masterTrack env st t outputPath).1.error =
      some ("Mastering failed: " ++ e) ∧
    (masterTrack env st t outputPath).1.result = t.result := by
  simp [masterTrack, h]

/-- Witness for C4 at a concrete failing master call. -/
theorem masterTrack_failure_frame_witness :
    (masterTrack envMasterFail initState sampleTrack none).1.status =
      Status.error ∧
    (masterTrack envMasterFail initState sampleTrack none).1.result = none := by
  have h := masterTrack_failure_frame envMasterFail initState sampleTrack none
    ("mfail") rfl
  exact ⟨h.1, h.2.2.trans rfl⟩

/-! ## Claim C5: secondary post-waveform fetch failure is swallowed -/

/-- C5: a successful master whose secondary post-waveform fetch fails still
ends in `done` with the primary result stored and no error set. -/
theorem masterTrack_post_waveform_best_effort (env : Env) (st : MState)
    (t : Track) (outputPath : Option String) (r : MasterResult)
    (pa : AnalysisResult) (e : String)
    (h1 : env.masterFile (buildRequest st t outputPath) = .ok r)
    (h2 : r.post_analysis = some pa)
    (h3 : env.getWaveformData r.output_path 2000 = .error e) :
    (masterTrack env st t outputPath).1.status = Status.done ∧
    (masterTrack env st t outputPath).1.result = some r ∧
    (masterTrack env st t outputPath).1.error = none := by
  simp [masterTrack, h1, h2, h3]

/-- Witness for C5 at a concrete master success with a rejecting secondary
waveform fetch. -/
theorem masterTrack_post_waveform_best_effort_witness :
    (masterTrack envPostWaveFail initState sampleTrack none).1.status =
      Status.done ∧
    (masterTrack envPostWaveFail initState sampleTrack none).1.result =
      some sampleResultPost := by
  have h := masterTrack_post_waveform_best_effort envPostWaveFail initState
    sampleTrack none sampleResultPost sampleAnalysis ("wfail")
    rfl rfl rfl
  exact ⟨h.1, h.2.1⟩

/-! ## Claim C10: selected-track operations are no-ops without a valid
selection -/

/-- When the computed `selectedTrack` is null, so is its index form. -/
theorem selectedIdx_eq_none_of_selectedTrack (st : MState)
    (h : selectedTrack st = none) : selectedIdx st = none := by
  rw [selectedTrack, List.find?_eq_none] at h
  rw [selectedIdx, List.findIdx?_eq_none_iff]
  intro x hx
  simpa using h x hx

/-- C10: if `selectedTrackId` matches no registry track (in particular when
it is null), `analyzeSelected` and `masterSelected` return immediately with
the state unchanged and an empty trace — for any oracle, so no remote call
outcome can influence the result. -/
theorem selected_ops_noop_without_selection (env env2 : Env)
    (outputPath : Option String) (st : MState)
    (h : selectedTrack st = none) :
    analyzeSelected env st = (st, []) ∧
    masterSelected env2 outputPath st = (st, []) := by
  have hi := selectedIdx_eq_none_of_selectedTrack st h
  exact ⟨by simp [analyzeSelected, hi], by simp [masterSelected, hi]⟩

/-- Witness for C10: a registry with one track but a dangling selected id. -/
theorem selected_ops_noop_without_selection_witness :
    analyzeSelected envOk (selectTrack (some 99) (addTracks ["a.wav"] initState)) =
      (selectTrack (some 99) (addTracks ["a.wav"] initState), []) ∧
    masterSelected envOk none (selectTrack (some 99) (addTracks ["a.wav"] initState)) =
      (selectTrack (some 99) (addTracks ["a.wav"] initState), []) :=
  selected_ops_noop_without_selection envOk envOk none _ (by decide)

/-! ## Registry helper lemmas -/

/-- Applying `fixSelection` never changes the track list. -/
theorem fixSelection_tracks (st : MState) : (fixSelection st).tracks = st.tracks := by
  unfold fixSelection
  split
  · rfl
  · split <;> rfl

/-- Applying `fixSelection` is the identity when something truthy is selected. -/
theorem fixSelection_of_not_falsy (st : MState)
    (h : idIsFalsy st.selectedTrackId = false) : fixSelection st = st := by
  unfold fixSelection
  split
  · rfl
  · simp [h]

/-- On a non-empty registry with positive ids, `fixSelection` leaves a
truthy selection. -/
theorem fixSelection_sel_not_falsy (st : MState)
    (hids : ∀ t ∈ st.tracks, 1 ≤ t.id) (hne : st.tracks ≠ []) :
    idIsFalsy (fixSelection st).selectedTrackId = false := by
  unfold fixSelection
  split
  · simp_all
  · rename_i t rest heq
    have h1 : 1 ≤ t.id := hids t (by rw [heq]; exact List.mem_cons_self t rest)
    split
    · simp only [idIsFalsy, beq_eq_false_iff_ne, ne_eq]
      omega
    · rename_i hnf
      simpa using hnf

/-- The import loop never touches the selection. -/
theorem foldl_addTrack1_sel (ps : List String) :
    ∀ st : MState, (ps.foldl addTrack1 st).selectedTrackId = st.selectedTrackId := by
  induction ps with
  | nil => intro st; rfl
  | cons p rest ih =>
    intro st
    rw [List.foldl_cons, ih]
    unfold addTrack1
    split <;> rfl

/-- The import loop only appends tracks. -/
theorem foldl_addTrack1_tracks_extend (ps : List String) :
    ∀ st : MState, ∃ l, (ps.foldl addTrack1 st).tracks = st.tracks ++ l := by
  induction ps with
  | nil => exact fun st => ⟨[], by simp⟩
  | cons p rest ih =>
    intro st
    rcases ih (addTrack1 st p) with ⟨l, hl⟩
    by_cases h : st.tracks.any (fun t => decide (t.path = p)) = true
    · exact ⟨l, by rw [List.foldl_cons, hl]; simp [addTrack1, h]⟩
    · refine ⟨freshTrack st p :: l, ?_⟩
      rw [List.foldl_cons, hl]
      simp [addTrack1, h]

/-- One import-loop step preserves positivity of ids. -/
theorem addTrack1_ids (st : MState) (p : String)
    (h : ∀ t ∈ st.tracks, 1 ≤ t.id) :
    ∀ t ∈ (addTrack1 st p).tracks, 1 ≤ t.id := by
  unfold addTrack1
  split
  · exact h
  · intro t ht
    rcases List.mem_append.mp ht with h1 | h1
    · exact h t h1
    · have : t = freshTrack st p := by simpa using h1
      subst this
      simp [freshTrack]

/-- The import loop preserves positivity of ids. -/
theorem foldl_addTrack1_ids (ps : List String) :
    ∀ st : MState, (∀ t ∈ st.tracks, 1 ≤ t.id) →
      ∀ t ∈ (ps.foldl addTrack1 st).tracks, 1 ≤ t.id := by
  induction ps with
  | nil => exact fun st h => h
  | cons p rest ih =>
    intro st h
    exact ih (addTrack1 st p) (addTrack1_ids st p h)

/-- Import via `addTracks` preserves positivity of ids. -/
theorem addTracks_ids (ps : List String) (st : MState)
    (h : ∀ t ∈ st.tracks, 1 ≤ t.id) :
    ∀ t ∈ (addTracks ps st).tracks, 1 ≤ t.id := by
  rw [addTracks]
  intro t ht
  rw [fixSelection_tracks] at ht
  exact foldl_addTrack1_ids ps st h t ht

/-! ## Claim C7: import is idempotent per path -/

/-- If a track with path `p` exists, one loop step skips `p`. -/
theorem addTrack1_of_mem (st : MState) (p : String)
    (h : ∃ t ∈ st.tracks, t.path = p) : addTrack1 st p = st := by
  have hany : st.tracks.any (fun t => decide (t.path = p)) = true := by
    rw [List.any_eq_true]
    obtain ⟨t, ht, hp⟩ := h
    exact ⟨t, ht, by simpa using hp⟩
  simp [addTrack1, hany]

/-- If no track with path `p` exists, one loop step pushes a fresh track. -/
theorem addTrack1_of_not_mem (st : MState) (p : String)
    (h : ¬ ∃ t ∈ st.tracks, t.path = p) :
    addTrack1 st p =
      { st with trackIdCounter := st.trackIdCounter + 1,
                tracks := st.tracks ++ [freshTrack st p] } := by
  have hany : st.tracks.any (fun t => decide (t.path = p)) = false := by
    rw [List.any_eq_false]
    intro t ht
    simp only [decide_eq_true_eq]
    exact fun hp => h ⟨t, ht, hp⟩
  simp [addTrack1, hany]

/-- C7: importing a path `p` into a registry holding at most one track with
that path leaves exactly one track with path `p`, and importing `p` again
changes nothing at all. -/
theorem addTracks_idempotent_per_path (st : MState) (p : String)
    (hids : ∀ t ∈ st.tracks, 1 ≤ t.id)
    (hcount : pathCount p st.tracks ≤ 1) :
    pathCount p (addTracks [p] st).tracks = 1 ∧
    addTracks [p] (addTracks [p] st) = addTracks [p] st := by
  have hfold : ∀ s : MState, [p].foldl addTrack1 s = addTrack1 s p := fun s => rfl
  have hcnt : pathCount p (addTracks [p] st).tracks = 1 := by
    by_cases hmem : ∃ t ∈ st.tracks, t.path = p
    · have htr : (addTracks [p] st).tracks = st.tracks := by
        rw [addTracks, hfold, addTrack1_of_mem st p hmem, fixSelection_tracks]
      have hpos : 0 < pathCount p st.tracks := by
        rw [pathCount, List.countP_pos_iff]
        obtain ⟨t, ht, hp⟩ := hmem
        exact ⟨t, ht, by simpa using hp⟩
      rw [htr]
      omega
    · have htr : (addTracks [p] st).tracks = st.tracks ++ [freshTrack st p] := by
        rw [addTracks, hfold, addTrack1_of_not_mem st p hmem, fixSelection_tracks]
      have hz : pathCount p st.tracks = 0 := by
        rw [pathCount, List.countP_eq_zero]
        intro t ht
        simp only [decide_eq_true_eq]
        exact fun hp => hmem ⟨t, ht, hp⟩
      rw [htr, pathCount, List.countP_append]
      rw [pathCount] at hz
      simp [hz, freshTrack]
  refine ⟨hcnt, ?_⟩
  have hmem2 : ∃ t ∈ (addTracks [p] st).tracks, t.path = p := by
    have : 0 < pathCount p (addTracks [p] st).tracks := by omega
    rw [pathCount, List.countP_pos_iff] at this
    obtain ⟨t, ht, hp⟩ := this
    exact ⟨t, ht, by simpa using hp⟩
  have hne : (addTracks [p] st).tracks ≠ [] := by
    intro hempty
    rw [hempty] at hcnt
    simp [pathCount] at hcnt
  have hids1 : ∀ t ∈ ([p].foldl addTrack1 st).tracks, 1 ≤ t.id :=
    foldl_addTrack1_ids [p] st hids
  have hnf : idIsFalsy (addTracks [p] st).selectedTrackId = false := by
    rw [addTracks]
    refine fixSelection_sel_not_falsy _ hids1 ?_
    intro hempty
    apply hne
    rw [addTracks, fixSelection_tracks, hempty]
  rw [addTracks, hfold, addTrack1_of_mem _ p hmem2,
    fixSelection_of_not_falsy _ hnf]

/-- Witness for C7 on the empty registry. -/
theorem addTracks_idempotent_per_path_witness :
    pathCount ("a.wav") (addTracks ["a.wav"] initState).tracks = 1 ∧
    addTracks ["a.wav"] (addTracks ["a.wav"] initState) =
      addTracks ["a.wav"] initState :=
  addTracks_idempotent_per_path initState ("a.wav") (by simp [initState])
    (by simp [pathCount, initState])

/-! ## Claim C8: which track gets selected by `addTracks` -/

/-- Counterexample to C8 as stated: the import of `b.wav` registers a new
track (id 2) while nothing is selected and the registry is non-empty, yet
the previously existing first track (id 1) becomes selected, not the first
newly-registered one. -/
theorem addTracks_selects_first_new_counterexample :
    (selectTrack none (addTracks ["a.wav"] initState)).selectedTrackId = none ∧
    c8State.tracks.map (fun t => (t.id, t.path)) = [(1, "a.wav"), (2, "b.wav")] ∧
    c8State.selectedTrackId = some 1 ∧ ¬ c8State.selectedTrackId = some 2 := by
  refine ⟨rfl, by decide, rfl, by decide⟩

/-- C8 as amended: whenever `addTracks` runs with a falsy selection and the
registry ends non-empty, the *first track of the registry* becomes selected;
when the registry was previously empty this coincides with the first
newly-registered track (id `trackIdCounter + 1`). -/
theorem addTracks_selects_first_existing (paths : List String) (st : MState)
    (hf : idIsFalsy st.selectedTrackId = true) :
    (∀ t, (addTracks paths st).tracks.head? = some t →
      (addTracks paths st).selectedTrackId = some t.id) ∧
    (∀ p rest, st.tracks = [] → paths = p :: rest →
      (addTracks paths st).selectedTrackId = some (freshTrack st p).id) := by
  have hsel : (paths.foldl addTrack1 st).selectedTrackId = st.selectedTrackId :=
    foldl_addTrack1_sel paths st
  have ha : ∀ t, (addTracks paths st).tracks.head? = some t →
      (addTracks paths st).selectedTrackId = some t.id := by
    intro t ht
    rw [addTracks, fixSelection_tracks, List.head?_eq_some_iff] at ht
    obtain ⟨ys, hys⟩ := ht
    rw [addTracks]
    unfold fixSelection
    split
    · simp_all
    · rename_i t2 rest2 heq
      rw [hys] at heq
      obtain ⟨rfl, -⟩ : t = t2 ∧ ys = rest2 := by
        constructor <;> [exact (List.cons.injEq ..).mp heq |>.1;
          exact (List.cons.injEq ..).mp heq |>.2]
      rw [if_pos (by rw [hsel]; exact hf)]
  refine ⟨ha, ?_⟩
  intro p rest hempty hpaths
  have hstep : addTrack1 st p =
      { st with trackIdCounter := st.trackIdCounter + 1,
                tracks := st.tracks ++ [freshTrack st p] } := by
    apply addTrack1_of_not_mem
    rw [hempty]
    simp
  have hhead : (addTracks paths st).tracks.head? = some (freshTrack st p) := by
    rw [addTracks, fixSelection_tracks, hpaths, List.foldl_cons]
    obtain ⟨l, hl⟩ := foldl_addTrack1_tracks_extend rest (addTrack1 st p)
    rw [hl, hstep]
    simp [hempty]
  exact ha (freshTrack st p) hhead

/-- Witness for the amended C8: on an empty registry the imported track is
both the registry head and the newly created track, and gets selected. -/
theorem addTracks_selects_first_existing_witness :
    (addTracks ["a.wav"] initState).selectedTrackId =
      some (freshTrack initState ("a.wav")).id :=
  (addTracks_selects_first_existing ["a.wav"] initState rfl).2 ("a.wav") []
    rfl rfl

/-! ## Claim C6: the selection invariant under add/remove sequences -/

/-- Import via `addTracks` preserves the selection invariant. -/
theorem addTracks_selectionInv (ps : List String) (st : MState)
    (h : SelectionInv st) : SelectionInv (addTracks ps st) := by
  obtain ⟨hids, hnone, hsome⟩ := h
  have hsel := foldl_addTrack1_sel ps st
  obtain ⟨l, hl⟩ := foldl_addTrack1_tracks_extend ps st
  have hids1 := foldl_addTrack1_ids ps st hids
  rw [addTracks]
  unfold fixSelection
  split
  · rename_i heq
    refine ⟨hids1, fun _ => heq, ?_⟩
    intro s hs
    rw [hsel] at hs
    obtain ⟨t, ht, hid⟩ := hsome s hs
    have hmem : t ∈ (ps.foldl addTrack1 st).tracks := by
      rw [hl]; exact List.mem_append_left _ ht
    rw [heq] at hmem
    simp at hmem
  · rename_i t rest heq
    split
    · refine ⟨hids1, ?_, ?_⟩
      · intro hc
        simp at hc
      · intro s hs
        simp only [Option.some.injEq] at hs
        refine ⟨t, ?_, ?_⟩
        · show t ∈ (ps.foldl addTrack1 st).tracks
          rw [heq]
          exact List.mem_cons_self t rest
        · exact hs
    · rename_i hnf
      refine ⟨hids1, ?_, ?_⟩
      · intro hc
        rw [hsel] at hc
        rw [hsel, hc] at hnf
        simp [idIsFalsy] at hnf
      · intro s hs
        rw [hsel] at hs
        obtain ⟨t2, ht2, hid2⟩ := hsome s hs
        exact ⟨t2, by rw [hl]; exact List.mem_append_left _ ht2, hid2⟩

/-- Removal via `removeTrack` preserves the selection invariant. -/
theorem removeTrack_selectionInv (id : Nat) (st : MState)
    (h : SelectionInv st) : SelectionInv (removeTrack id st) := by
  obtain ⟨hids, hnone, hsome⟩ := h
  unfold removeTrack
  cases hfind : st.tracks.findIdx? (fun t => decide (t.id = id)) with
  | none =>
    simp only
    split
    · rename_i hsel
      obtain ⟨t, ht, hid⟩ := hsome id hsel
      rw [List.findIdx?_eq_none_iff] at hfind
      have := hfind t ht
      simp [hid] at this
    · exact ⟨hids, hnone, hsome⟩
  | some idx =>
    simp only
    have hremoved : ∀ t : Track, st.tracks[idx]? = some t → t.id = id := by
      have hp := List.findIdx?_of_eq_some hfind
      intro t hgt
      rw [hgt] at hp
      simpa using hp
    have hidserase : ∀ t ∈ st.tracks.eraseIdx idx, 1 ≤ t.id := fun t ht =>
      hids t ((List.eraseIdx_sublist st.tracks idx).subset ht)
    split
    · refine ⟨hidserase, ?_, ?_⟩
      · intro hselnone
        cases htr : st.tracks.eraseIdx idx with
        | nil => simp [htr]
        | cons a rest => simp [htr] at hselnone
      · intro s hs
        cases htr : st.tracks.eraseIdx idx with
        | nil => simp [htr] at hs
        | cons a rest =>
          simp only [htr, Option.some.injEq] at hs
          exact ⟨a, by simp [htr], hs⟩
    · rename_i hselne
      refine ⟨hidserase, ?_, ?_⟩
      · intro hselnone
        have hempty := hnone hselnone
        rw [hempty] at hfind
        simp [List.findIdx?_nil] at hfind
      · intro s hs
        obtain ⟨t, ht, hid⟩ := hsome s hs
        have hsne : s ≠ id := fun hcontra => hselne (by rw [hs, hcontra])
        obtain ⟨j, hj, hjt⟩ := List.getElem_of_mem ht
        refine ⟨t, ?_, hid⟩
        rw [List.mem_eraseIdx_iff_getElem]
        refine ⟨j, hj, ?_, hjt⟩
        intro hjeq
        subst hjeq
        have : t.id = id := hremoved t (by rw [List.getElem?_eq_getElem hj, hjt])
        exact hsne (by rw [← hid, this])

/-- The selection invariant is preserved by any registry sequence. -/
theorem runReg_selectionInv (ops : List RegOp) :
    ∀ st : MState, SelectionInv st → SelectionInv (runReg ops st) := by
  induction ops with
  | nil => exact fun st h => h
  | cons op rest ih =>
    intro st h
    cases op with
    | add ps => exact ih _ (addTracks_selectionInv ps st h)
    | remove id => exact ih _ (removeTrack_selectionInv id st h)

/-- C6: after any sequence of `addTracks`/`removeTrack` operations from the
empty registry, `selectedTrackId` is null only when the registry is empty,
and otherwise is the id of a track currently in the registry. -/
theorem selection_invariant_holds (ops : List RegOp) :
    ((runReg ops initState).selectedTrackId = none →
      (runReg ops initState).tracks = []) ∧
    (∀ s, (runReg ops initState).selectedTrackId = some s →
      ∃ t ∈ (runReg ops initState).tracks, t.id = s) := by
  have h0 : SelectionInv initState := by
    refine ⟨?_, fun _ => rfl, ?_⟩ <;> simp [initState]
  have h := runReg_selectionInv ops initState h0
  exact ⟨h.2.1, h.2.2⟩

/-- Witness for C6 on a concrete add/remove sequence: after importing two
tracks and removing the selected first one, the selection names a present
track. -/
theorem selection_invariant_holds_witness :
    ∃ t ∈ (runReg [RegOp.add ["a.wav", "b.wav"], RegOp.remove 1]
      initState).tracks, t.id = 2 :=
  (selection_invariant_holds [RegOp.add ["a.wav", "b.wav"], RegOp.remove 1]).2
    2 (by decide)

/-! ## Batch-loop infrastructure -/

theorem progressEvents_append (a b : List Ev) :
    progressEvents (a ++ b) = progressEvents a ++ progressEvents b := by
  simp [progressEvents, List.filterMap_append]

theorem progressEvents_cons_progress (q : Rat) (evs : List Ev) :
    progressEvents (Ev.progress q :: evs) = q :: progressEvents evs := by
  simp [progressEvents]

/-- A single analyze attempt assigns no progress. -/
theorem analyzeTrack_progressEvents (env : Env) (t : Track) :
    progressEvents (analyzeTrack env t).2 = [] := by
  rcases h1 : env.analyzeFile t.path <;>
    rcases h2 : env.getWaveformData t.path 2000 <;>
      simp [analyzeTrack, h1, h2, progressEvents]

/-- A single master attempt assigns no progress. -/
theorem masterTrack_progressEvents (env : Env) (st : MState) (t : Track)
    (outputPath : Option String) :
    progressEvents (masterTrack env st t outputPath).2 = [] := by
  rcases h1 : env.masterFile (buildRequest st t outputPath) with e | r
  · simp [masterTrack, h1, progressEvents]
  · rcases h2 : r.post_analysis with _ | pa
    · simp [masterTrack, h1, h2, progressEvents]
    · rcases h3 : env.getWaveformData r.output_path 2000 <;>
        simp [masterTrack, h1, h2, h3, progressEvents]

theorem analyzeTrackAt_progressEvents (env : Env) (idx : Nat) (st : MState) :
    progressEvents (analyzeTrackAt env idx st).2 = [] := by
  rcases h : st.tracks[idx]? with _ | t
  · simp [analyzeTrackAt, h, progressEvents]
  · simp only [analyzeTrackAt, h]
    exact analyzeTrack_progressEvents env t

theorem masterTrackAt_progressEvents (env : Env) (idx : Nat)
    (outputPath : Option String) (st : MState) :
    progressEvents (masterTrackAt env idx outputPath st).2 = [] := by
  rcases h : st.tracks[idx]? with _ | t
  · simp [masterTrackAt, h, progressEvents]
  · simp only [masterTrackAt, h]
    exact masterTrack_progressEvents env st t outputPath

/-- Progress values assigned by the `analyzeAll` loop: one `((i+k+1)/N)*100`
per remaining snapshot entry, in order. -/
theorem analyzeAllLoop_progress (env : Env) (N : Nat) (idxs : List Nat) :
    ∀ (i : Nat) (st : MState),
      progressEvents (analyzeAllLoop env N idxs i st).2 =
        (List.range idxs.length).map fun k => progVal (i + k) N := by
  induction idxs with
  | nil => intro i st; simp [analyzeAllLoop, progressEvents]
  | cons idx rest ih =>
    intro i st
    have hunfold : (analyzeAllLoop env N (idx :: rest) i st).2 =
        Ev.progress (progVal i N) ::
          ((analyzeTrackAt env idx (analyzeStepState st i N)).2 ++
           (analyzeAllLoop env N rest (i + 1)
             (analyzeTrackAt env idx (analyzeStepState st i N)).1).2) := rfl
    rw [hunfold, progressEvents_cons_progress, progressEvents_append,
      analyzeTrackAt_progressEvents, ih]
    have hfun : ((fun k => progVal (i + k) N) ∘ Nat.succ) =
        fun k => progVal (i + 1 + k) N := by
      funext k
      simp only [Function.comp]
      congr 1
      omega
    simp only [List.length_cons, List.range_succ_eq_map, List.map_cons,
      List.map_map, hfun, Nat.add_zero, List.nil_append]

/-- Progress values assigned by the `masterAll` loop. -/
theorem masterAllLoop_progress (env : Env) (N : Nat) (idxs : List Nat) :
    ∀ (i : Nat) (st : MState),
      progressEvents (masterAllLoop env N idxs i st).2 =
        (List.range idxs.length).map fun k => progVal (i + k) N := by
  induction idxs with
  | nil => intro i st; simp [masterAllLoop, progressEvents]
  | cons idx rest ih =>
    intro i st
    have hunfold : (masterAllLoop env N (idx :: rest) i st).2 =
        Ev.progress (progVal i N) ::
          ((masterTrackAt env idx none (masterStepState st idx i N)).2 ++
           (masterAllLoop env N rest (i + 1)
             (masterTrackAt env idx none (masterStepState st idx i N)).1).2) := rfl
    rw [hunfold, progressEvents_cons_progress, progressEvents_append,
      masterTrackAt_progressEvents, ih]
    have hfun : ((fun k => progVal (i + k) N) ∘ Nat.succ) =
        fun k => progVal (i + 1 + k) N := by
      funext k
      simp only [Function.comp]
      congr 1
      omega
    simp only [List.length_cons, List.range_succ_eq_map, List.map_cons,
      List.map_map, hfun, Nat.add_zero, List.nil_append]

/-- Position membership in the pending snapshot of `analyzeAll`. -/
theorem mem_pendingIdxs_iff (ts : List Track) (j : Nat) :
    j ∈ pendingIdxs ts ↔ ∃ t, ts[j]? = some t ∧
      (t.status = Status.idle ∨ t.status = Status.error) := by
  rw [pendingIdxs, List.mem_filter, List.mem_range]
  constructor
  · rintro ⟨hlt, hpred⟩
    rcases hx : ts[j]? with _ | t
    · rw [hx] at hpred; simp at hpred
    · rw [hx] at hpred
      simp only [decide_eq_true_eq] at hpred
      exact ⟨t, rfl, hpred⟩
  · rintro ⟨t, hjt, hst⟩
    obtain ⟨hlt, -⟩ := List.getElem?_eq_some.mp hjt
    exact ⟨hlt, by rw [hjt]; simpa using hst⟩

/-- Position membership in the target snapshot of `masterAll`. -/
theorem mem_targetIdxs_iff (ts : List Track) (j : Nat) :
    j ∈ targetIdxs ts ↔ ∃ t, ts[j]? = some t ∧
      (t.status = Status.analyzed ∨ t.status = Status.error) := by
  rw [targetIdxs, List.mem_filter, List.mem_range]
  constructor
  · rintro ⟨hlt, hpred⟩
    rcases hx : ts[j]? with _ | t
    · rw [hx] at hpred; simp at hpred
    · rw [hx] at hpred
      simp only [decide_eq_true_eq] at hpred
      exact ⟨t, rfl, hpred⟩
  · rintro ⟨t, hjt, hst⟩
    obtain ⟨hlt, -⟩ := List.getElem?_eq_some.mp hjt
    exact ⟨hlt, by rw [hjt]; simpa using hst⟩

theorem pendingIdxs_nodup (ts : List Track) : (pendingIdxs ts).Nodup :=
  (List.nodup_range _).filter _

theorem targetIdxs_nodup (ts : List Track) : (targetIdxs ts).Nodup :=
  (List.nodup_range _).filter _

/-- Positionwise effect of one `analyzeTrackAt` call on the track list. -/
theorem analyzeTrackAt_tracks_getElem (env : Env) (idx j : Nat) (st : MState) :
    (analyzeTrackAt env idx st).1.tracks[j]? =
      if idx = j then (st.tracks[j]?).map (fun t => (analyzeTrack env t).1)
      else st.tracks[j]? := by
  rcases hx : st.tracks[idx]? with _ | t
  · simp only [analyzeTrackAt, hx]
    split
    · rename_i heq; subst heq; rw [hx]; rfl
    · rfl
  · simp only [analyzeTrackAt, hx]
    split
    · rename_i heq
      subst heq
      obtain ⟨hlt, -⟩ := List.getElem?_eq_some.mp hx
      rw [hx]
      simpa using List.getElem?_set_eq_of_lt (analyzeTrack env t).1 hlt
    · rename_i hne
      simpa using List.getElem?_set_ne hne

/-- Final track list of the `analyzeAll` loop: every snapshot position gets
exactly its own attempt's outcome, every other position is untouched. -/
theorem analyzeAllLoop_tracks (env : Env) (N : Nat) (idxs : List Nat) :
    ∀ (i : Nat) (st : MState), idxs.Nodup → ∀ j : Nat,
      (j ∈ idxs → (analyzeAllLoop env N idxs i st).1.tracks[j]? =
        (st.tracks[j]?).map fun t => (analyzeTrack env t).1) ∧
      (j ∉ idxs → (analyzeAllLoop env N idxs i st).1.tracks[j]? =
        st.tracks[j]?) := by
  induction idxs with
  | nil =>
    intro i st _ j
    exact ⟨fun h => absurd h (List.not_mem_nil j), fun _ => rfl⟩
  | cons idx rest ih =>
    intro i st hnd j
    obtain ⟨hun, hndr⟩ := List.nodup_cons.mp hnd
    have hunfold : (analyzeAllLoop env N (idx :: rest) i st).1 =
        (analyzeAllLoop env N rest (i + 1)
          (analyzeTrackAt env idx (analyzeStepState st i N)).1).1 := rfl
    have hstep : ∀ k : Nat,
        (analyzeTrackAt env idx (analyzeStepState st i N)).1.tracks[k]? =
          if idx = k then (st.tracks[k]?).map (fun t => (analyzeTrack env t).1)
          else st.tracks[k]? := by
      intro k
      rw [analyzeTrackAt_tracks_getElem]
      rfl
    constructor
    · intro hj
      rcases List.mem_cons.mp hj with rfl | hjr
      · have h2 := (ih (i + 1)
          (analyzeTrackAt env j (analyzeStepState st i N)).1 hndr j).2 hun
        rw [hunfold, h2, hstep j, if_pos rfl]
      · have hne : idx ≠ j := fun h => hun (h ▸ hjr)
        have h1 := (ih (i + 1)
          (analyzeTrackAt env idx (analyzeStepState st i N)).1 hndr j).1 hjr
        rw [hunfold, h1, hstep j, if_neg hne]
    · intro hj
      have hne : idx ≠ j := fun h => hj (h ▸ List.mem_cons_self idx rest)
      have hjr : j ∉ rest := fun h => hj (List.mem_cons_of_mem idx h)
      have h2 := (ih (i + 1)
        (analyzeTrackAt env idx (analyzeStepState st i N)).1 hndr j).2 hjr
      rw [hunfold, h2, hstep j, if_neg hne]

/-- The outcome status of a single analyze attempt. -/
theorem analyzeTrack_status (env : Env) (t : Track) :
    (analyzeTrack env t).1.status =
      if analyzeOk env t.path = true then Status.analyzed else Status.error := by
  rcases h1 : env.analyzeFile t.path <;>
    rcases h2 : env.getWaveformData t.path 2000 <;>
      simp [analyzeTrack, analyzeOk, h1, h2, Except.toOption]

/-! ## Claim C2: batch fault isolation of `analyzeAll` -/

/-- C2: `analyzeAll` attempts every track of the pending snapshot — each one
ends with exactly its own attempt's outcome (`analyzed` on success, `error`
on failure), non-pending tracks are untouched — and afterwards `processing`
is false, the message empty and the progress 0, whatever the outcomes. -/
theorem analyzeAll_fault_isolation (env : Env) (st : MState) :
    (analyzeAll env st).1.processing = false ∧
    (analyzeAll env st).1.processingMessage = "" ∧
    (analyzeAll env st).1.processingProgress = 0 ∧
    (∀ (j : Nat) (t : Track), st.tracks[j]? = some t →
      (t.status = Status.idle ∨ t.status = Status.error) →
      (analyzeAll env st).1.tracks[j]? = some (analyzeTrack env t).1 ∧
      (analyzeTrack env t).1.status =
        (if analyzeOk env t.path = true then Status.analyzed
         else Status.error)) ∧
    (∀ (j : Nat) (t : Track), st.tracks[j]? = some t →
      ¬(t.status = Status.idle ∨ t.status = Status.error) →
      (analyzeAll env st).1.tracks[j]? = some t) := by
  refine ⟨rfl, rfl, rfl, ?_, ?_⟩
  · intro j t hjt hp
    have hmem : j ∈ pendingIdxs st.tracks :=
      (mem_pendingIdxs_iff st.tracks j).mpr ⟨t, hjt, hp⟩
    have hl := (analyzeAllLoop_tracks env (pendingIdxs st.tracks).length
      (pendingIdxs st.tracks) 0 { st with processing := true, error := none }
      (pendingIdxs_nodup st.tracks) j).1 hmem
    refine ⟨?_, analyzeTrack_status env t⟩
    have hfinal : (analyzeAll env st).1.tracks[j]? =
        (analyzeAllLoop env (pendingIdxs st.tracks).length
          (pendingIdxs st.tracks) 0
          { st with processing := true, error := none }).1.tracks[j]? := rfl
    rw [hfinal, hl]
    have hl2 : ({ st with processing := true, error := none } : MState).tracks[j]? =
        some t := hjt
    rw [hl2]
    rfl
  · intro j t hjt hnp
    have hmem : j ∉ pendingIdxs st.tracks := by
      intro hc
      obtain ⟨t2, hjt2, hst2⟩ := (mem_pendingIdxs_iff st.tracks j).mp hc
      rw [hjt] at hjt2
      exact hnp (Option.some_inj.mp hjt2 ▸ hst2)
    have hl := (analyzeAllLoop_tracks env (pendingIdxs st.tracks).length
      (pendingIdxs st.tracks) 0 { st with processing := true, error := none }
      (pendingIdxs_nodup st.tracks) j).2 hmem
    have hfinal : (analyzeAll env st).1.tracks[j]? =
        (analyzeAllLoop env (pendingIdxs st.tracks).length
          (pendingIdxs st.tracks) 0
          { st with processing := true, error := none }).1.tracks[j]? := rfl
    rw [hfinal, hl]
    exact hjt

/-- Witness for C2: in the three-track batch with the middle track failing,
the loop still runs to completion and the middle track carries its own
(failing) attempt outcome. -/
theorem analyzeAll_fault_isolation_witness :
    (analyzeAll envMid st3).1.processing = false ∧
    (analyzeAll envMid st3).1.tracks[1]? =
      some (analyzeTrack envMid trkB).1 := by
  have h := analyzeAll_fault_isolation envMid st3
  exact ⟨h.1, (h.2.2.2.1 1 trkB (by decide) (by decide)).1⟩

/-! ## Claim C9: the progress sequence of a batch -/

/-- The per-step progress values of a batch of `N` are strictly
increasing. -/
theorem progVal_pairwise (N : Nat) (hN : 0 < N) :
    List.Pairwise (· < ·) ((List.range N).map fun k => progVal k N) := by
  refine List.Pairwise.map _ ?_ (List.pairwise_lt_range N)
  intro a b hab
  have hNpos : (0 : Rat) < N := by exact_mod_cast hN
  have hform : ∀ k : Nat, progVal k N = ((k : Rat) + 1) * (100 / N) := by
    intro k
    rw [progVal]
    ring
  rw [hform a, hform b]
  exact mul_lt_mul_of_pos_right
    (add_lt_add_right ((Nat.cast_lt (α := Rat)).mpr hab) 1)
    (div_pos (by norm_num) hNpos)

/-- The final per-step progress value of a batch of `N ≥ 1` is `100`. -/
theorem progVal_last (N : Nat) (hN : 0 < N) :
    ((List.range N).map fun k => progVal k N).getLast? = some 100 := by
  obtain ⟨m, rfl⟩ : ∃ m, N = m + 1 := ⟨N - 1, by omega⟩
  rw [List.range_succ, List.map_append]
  simp only [List.map_cons, List.map_nil, List.getLast?_concat]
  have hcast : (((m + 1 : Nat)) : Rat) = (m : Rat) + 1 := by push_cast; ring
  have hne : ((m : Rat) + 1) ≠ 0 := by positivity
  rw [progVal, hcast, div_self hne, one_mul]

/-- The full progress trace of `analyzeAll`. -/
theorem analyzeAll_progress (env : Env) (st : MState) :
    progressEvents (analyzeAll env st).2 =
      ((List.range (pendingIdxs st.tracks).length).map fun k =>
        progVal k (pendingIdxs st.tracks).length) ++ [0] := by
  have hunfold : (analyzeAll env st).2 =
      (analyzeAllLoop env (pendingIdxs st.tracks).length (pendingIdxs st.tracks)
        0 { st with processing := true, error := none }).2 ++
      [Ev.progress 0] := rfl
  rw [hunfold, progressEvents_append, analyzeAllLoop_progress]
  simp [progressEvents]

/-- The full progress trace of `masterAll`. -/
theorem masterAll_progress (env : Env) (st : MState) :
    progressEvents (masterAll env st).2 =
      ((List.range (targetIdxs st.tracks).length).map fun k =>
        progVal k (targetIdxs st.tracks).length) ++ [0] := by
  have hunfold : (masterAll env st).2 =
      (masterAllLoop env (targetIdxs st.tracks).length (targetIdxs st.tracks)
        0 { st with processing := true, error := none }).2 ++
      [Ev.progress 0] := rfl
  rw [hunfold, progressEvents_append, masterAllLoop_progress]
  simp [progressEvents]

/-- C9: during a batch over `N ≥ 1` pending tracks, `processingProgress` is
assigned exactly the values `(1/N)*100, (2/N)*100, ..., 100` in order (one
before each step), that sequence is strictly increasing, and the progress is
reset to 0 after the batch — for `analyzeAll` and likewise for `masterAll`
over its target snapshot. -/
theorem batch_progress_sequence (env env2 : Env) (st st2 : MState)
    (hN : 0 < (pendingIdxs st.tracks).length)
    (hM : 0 < (targetIdxs st2.tracks).length) :
    (progressEvents (analyzeAll env st).2 =
      ((List.range (pendingIdxs st.tracks).length).map fun k =>
        progVal k (pendingIdxs st.tracks).length) ++ [0]) ∧
    List.Pairwise (· < ·)
      ((List.range (pendingIdxs st.tracks).length).map fun k =>
        progVal k (pendingIdxs st.tracks).length) ∧
    (((List.range (pendingIdxs st.tracks).length).map fun k =>
        progVal k (pendingIdxs st.tracks).length).getLast? = some 100) ∧
    (analyzeAll env st).1.processingProgress = 0 ∧
    (progressEvents (masterAll env2 st2).2 =
      ((List.range (targetIdxs st2.tracks).length).map fun k =>
        progVal k (targetIdxs st2.tracks).length) ++ [0]) ∧
    List.Pairwise (· < ·)
      ((List.range (targetIdxs st2.tracks).length).map fun k =>
        progVal k (targetIdxs st2.tracks).length) ∧
    (((List.range (targetIdxs st2.tracks).length).map fun k =>
        progVal k (targetIdxs st2.tracks).length).getLast? = some 100) ∧
    (masterAll env2 st2).1.processingProgress = 0 :=
  ⟨analyzeAll_progress env st, progVal_pairwise _ hN, progVal_last _ hN, rfl,
   masterAll_progress env2 st2, progVal_pairwise _ hM, progVal_last _ hM, rfl⟩

/-- Witness for C9 on one-element batches: the progress trace is `[100, 0]`
for both batch operations. -/
theorem batch_progress_sequence_witness :
    progressEvents (analyzeAll envOk (addTracks ["a.wav"] initState)).2 =
      ((List.range (pendingIdxs (addTracks ["a.wav"] initState).tracks).length).map
        fun k => progVal k
          (pendingIdxs (addTracks ["a.wav"] initState).tracks).length) ++ [0] ∧
    (masterAll envOk stAnalyzed).1.processingProgress = 0 := by
  have h := batch_progress_sequence envOk envOk (addTracks ["a.wav"] initState)
    stAnalyzed (by decide) (by decide)
  exact ⟨h.1, h.2.2.2.2.2.2.2⟩

/-! ## Claim C1: entries into the `mastering` state -/

theorem masterEntriesOk_nil : MasterEntriesOk [] :=
  fun _ _ h => absurd h (List.not_mem_nil _)

theorem masterEntriesOk_append {a b : List Ev} (ha : MasterEntriesOk a)
    (hb : MasterEntriesOk b) : MasterEntriesOk (a ++ b) := by
  intro i old h
  rcases List.mem_append.mp h with h | h
  · exact ha i old h
  · exact hb i old h

theorem masterEntriesOk_cons_progress {q : Rat} {evs : List Ev}
    (h : MasterEntriesOk evs) : MasterEntriesOk (Ev.progress q :: evs) := by
  intro i old hmem
  rcases List.mem_cons.mp hmem with heq | hmem2
  · cases heq
  · exact h i old hmem2

/-- An analyze attempt transitions through `analyzing` into `analyzed` or
`error`, never into `mastering`. -/
theorem analyzeTrack_masterEntriesOk (env : Env) (t : Track) :
    MasterEntriesOk (analyzeTrack env t).2 := by
  intro i old h
  rcases h1 : env.analyzeFile t.path <;>
    rcases h2 : env.getWaveformData t.path 2000 <;>
      simp [analyzeTrack, h1, h2] at h

/-- A master attempt enters `mastering` exactly once, from the track's
status at call time. -/
theorem masterTrack_masterEntriesOk (env : Env) (st : MState) (t : Track)
    (outputPath : Option String)
    (hst : t.status = Status.analyzed ∨ t.status = Status.error) :
    MasterEntriesOk (masterTrack env st t outputPath).2 := by
  intro i old h
  rcases h1 : env.masterFile (buildRequest st t outputPath) with e | r
  · simp [masterTrack, h1] at h
    obtain ⟨-, rfl⟩ := h
    exact hst
  · rcases h2 : r.post_analysis with _ | pa
    · simp [masterTrack, h1, h2] at h
      obtain ⟨-, rfl⟩ := h
      exact hst
    · rcases h3 : env.getWaveformData r.output_path 2000 <;>
        · simp [masterTrack, h1, h2, h3] at h
          obtain ⟨-, rfl⟩ := h
          exact hst

theorem analyzeTrackAt_masterEntriesOk (env : Env) (idx : Nat) (st : MState) :
    MasterEntriesOk (analyzeTrackAt env idx st).2 := by
  rcases hx : st.tracks[idx]? with _ | t
  · simp only [analyzeTrackAt, hx]
    exact masterEntriesOk_nil
  · simp only [analyzeTrackAt, hx]
    exact analyzeTrack_masterEntriesOk env t

theorem masterTrackAt_masterEntriesOk (env : Env) (idx : Nat)
    (outputPath : Option String) (st : MState)
    (hst : ∀ t : Track, st.tracks[idx]? = some t →
      t.status = Status.analyzed ∨ t.status = Status.error) :
    MasterEntriesOk (masterTrackAt env idx outputPath st).2 := by
  rcases hx : st.tracks[idx]? with _ | t
  · simp only [masterTrackAt, hx]
    exact masterEntriesOk_nil
  · simp only [masterTrackAt, hx]
    exact masterTrack_masterEntriesOk env st t outputPath (hst t hx)

/-- Positions other than the mastered one are untouched by
`masterTrackAt`. -/
theorem masterTrackAt_tracks_ne (env : Env) (idx : Nat)
    (outputPath : Option String) (st : MState) (j : Nat) (hne : idx ≠ j) :
    (masterTrackAt env idx outputPath st).1.tracks[j]? = st.tracks[j]? := by
  rcases hx : st.tracks[idx]? with _ | t
  · simp only [masterTrackAt, hx]
  · simp only [masterTrackAt, hx]
    simpa using List.getElem?_set_ne hne

theorem analyzeAllLoop_masterEntriesOk (env : Env) (N : Nat)
    (idxs : List Nat) : ∀ (i : Nat) (st : MState),
    MasterEntriesOk (analyzeAllLoop env N idxs i st).2 := by
  induction idxs with
  | nil => exact fun _ _ => masterEntriesOk_nil
  | cons idx rest ih =>
    intro i st
    have hunfold : (analyzeAllLoop env N (idx :: rest) i st).2 =
        Ev.progress (progVal i N) ::
          ((analyzeTrackAt env idx (analyzeStepState st i N)).2 ++
           (analyzeAllLoop env N rest (i + 1)
             (analyzeTrackAt env idx (analyzeStepState st i N)).1).2) := rfl
    rw [hunfold]
    exact masterEntriesOk_cons_progress
      (masterEntriesOk_append (analyzeTrackAt_masterEntriesOk env idx _)
        (ih (i + 1) _))

theorem masterAllLoop_masterEntriesOk (env : Env) (N : Nat)
    (idxs : List Nat) : ∀ (i : Nat) (st : MState), idxs.Nodup →
    (∀ j ∈ idxs, ∀ t : Track, st.tracks[j]? = some t →
      t.status = Status.analyzed ∨ t.status = Status.error) →
    MasterEntriesOk (masterAllLoop env N idxs i st).2 := by
  induction idxs with
  | nil => intro i st _ _; exact masterEntriesOk_nil
  | cons idx rest ih =>
    intro i st hnd hguard
    obtain ⟨hun, hndr⟩ := List.nodup_cons.mp hnd
    have hunfold : (masterAllLoop env N (idx :: rest) i st).2 =
        Ev.progress (progVal i N) ::
          ((masterTrackAt env idx none (masterStepState st idx i N)).2 ++
           (masterAllLoop env N rest (i + 1)
             (masterTrackAt env idx none (masterStepState st idx i N)).1).2) :=
      rfl
    rw [hunfold]
    refine masterEntriesOk_cons_progress (masterEntriesOk_append ?_ ?_)
    · refine masterTrackAt_masterEntriesOk env idx none _ ?_
      intro t hx
      exact hguard idx (List.mem_cons_self idx rest) t hx
    · refine ih (i + 1) _ hndr ?_
      intro j hj t hjt
      have hne : idx ≠ j := fun h => hun (h ▸ hj)
      rw [masterTrackAt_tracks_ne env idx none _ j hne] at hjt
      exact hguard j (List.mem_cons_of_mem idx hj) t hjt

theorem analyzeAll_masterEntriesOk (env : Env) (st : MState) :
    MasterEntriesOk (analyzeAll env st).2 := by
  have hunfold : (analyzeAll env st).2 =
      (analyzeAllLoop env (pendingIdxs st.tracks).length (pendingIdxs st.tracks)
        0 { st with processing := true, error := none }).2 ++
      [Ev.progress 0] := rfl
  rw [hunfold]
  refine masterEntriesOk_append (analyzeAllLoop_masterEntriesOk env _ _ 0 _) ?_
  exact masterEntriesOk_cons_progress masterEntriesOk_nil

theorem masterAll_masterEntriesOk (env : Env) (st : MState) :
    MasterEntriesOk (masterAll env st).2 := by
  have hunfold : (masterAll env st).2 =
      (masterAllLoop env (targetIdxs st.tracks).length (targetIdxs st.tracks)
        0 { st with processing := true, error := none }).2 ++
      [Ev.progress 0] := rfl
  rw [hunfold]
  refine masterEntriesOk_append ?_
    (masterEntriesOk_cons_progress masterEntriesOk_nil)
  refine masterAllLoop_masterEntriesOk env _ _ 0 _ (targetIdxs_nodup _) ?_
  intro j hj t hjt
  obtain ⟨t2, hjt2, hst2⟩ := (mem_targetIdxs_iff st.tracks j).mp hj
  have : t2 = t := by
    have h1 : st.tracks[j]? = some t := hjt
    rw [h1] at hjt2
    exact (Option.some_inj.mp hjt2).symm
  exact this ▸ hst2

theorem analyzeSelected_masterEntriesOk (env : Env) (st : MState) :
    MasterEntriesOk (analyzeSelected env st).2 := by
  rcases h1 : selectedIdx st with _ | i
  · simp only [analyzeSelected, h1]
    exact masterEntriesOk_nil
  · rcases h2 : st.tracks[i]? with _ | t
    · simp only [analyzeSelected, h1, h2]
      exact masterEntriesOk_nil
    · simp only [analyzeSelected, h1, h2]
      exact analyzeTrackAt_masterEntriesOk env i _

/-- A guarded step produces a mastering-clean trace. -/
theorem step_masterEntriesOk (env : Env) (op : Op) (st : MState)
    (hg : masterGuardOK st op) : MasterEntriesOk (step env op st).2 := by
  cases op with
  | addTracks ps => exact masterEntriesOk_nil
  | removeTrack id => exact masterEntriesOk_nil
  | selectTrack id => exact masterEntriesOk_nil
  | setReferenceFile p => exact masterEntriesOk_nil
  | clearAll => exact masterEntriesOk_nil
  | analyzeTrack id =>
    rcases h1 : trackIdxById st.tracks id with _ | i
    · simp only [step, h1]
      exact masterEntriesOk_nil
    · simp only [step, h1]
      exact analyzeTrackAt_masterEntriesOk env i st
  | analyzeAll => exact analyzeAll_masterEntriesOk env st
  | analyzeSelected => exact analyzeSelected_masterEntriesOk env st
  | masterTrack id outputPath =>
    rcases h1 : trackIdxById st.tracks id with _ | i
    · simp only [step, h1]
      exact masterEntriesOk_nil
    · simp only [step, h1]
      refine masterTrackAt_masterEntriesOk env i outputPath st ?_
      intro t hx
      have h1f : st.tracks.findIdx? (fun t => decide (t.id = id)) = some i := h1
      have hp := List.findIdx?_of_eq_some h1f
      rw [hx] at hp
      obtain ⟨hlt, hget⟩ := List.getElem?_eq_some.mp hx
      exact hg t (hget ▸ List.getElem_mem hlt) (by simpa using hp)
  | masterAll => exact masterAll_masterEntriesOk env st
  | masterSelected outputPath =>
    rcases h1 : selectedIdx st with _ | i
    · simp only [step, masterSelected, h1]
      exact masterEntriesOk_nil
    · rcases h2 : st.tracks[i]? with _ | t
      · simp only [step, masterSelected, h1, h2]
        exact masterEntriesOk_nil
      · simp only [step, masterSelected, h1, h2]
        refine masterTrackAt_masterEntriesOk env i outputPath _ ?_
        intro t2 hx2
        have hx2f : st.tracks[i]? = some t2 := hx2
        rw [h2] at hx2f
        obtain rfl := Option.some_inj.mp hx2f
        have h1f : st.tracks.findIdx?
            (fun t => decide (some t.id = st.selectedTrackId)) = some i := h1
        have hp := List.findIdx?_of_eq_some h1f
        rw [h2] at hp
        obtain ⟨hlt, hget⟩ := List.getElem?_eq_some.mp h2
        exact hg t (hget ▸ List.getElem_mem hlt) (by simpa using hp)

/-- A guarded run produces a mastering-clean trace. -/
theorem run_masterEntriesOk (ops : List (Env × Op)) :
    ∀ st : MState, GuardedFrom st ops → MasterEntriesOk (run ops st).2 := by
  induction ops with
  | nil => exact fun _ _ => masterEntriesOk_nil
  | cons eo rest ih =>
    intro st hg
    have hunfold : (run (eo :: rest) st).2 =
        (step eo.1 eo.2 st).2 ++ (run rest (step eo.1 eo.2 st).1).2 := rfl
    rw [hunfold]
    exact masterEntriesOk_append (step_masterEntriesOk eo.1 eo.2 st hg.1)
      (ih _ hg.2)

/-- C1 as amended: under any sequence of exposed operations in which the
per-track entry points `masterTrack`/`masterSelected` are only invoked on
tracks whose status is `analyzed` or `error` (the batch operations are
unconditionally safe — `masterAll` filters its targets), every entry into
`mastering` in the execution trace departs from `analyzed` or `error`; and
every track's status is always one of the six defined values.  Without the
guard the property fails: `masterTrack` sets `mastering` from any status
(see the counterexample). -/
theorem status_machine_closure_guarded (ops : List (Env × Op)) (st : MState)
    (hg : GuardedFrom st ops) :
    (∀ (i : Nat) (old : Status),
      Ev.status i old Status.mastering ∈ (run ops st).2 →
      old = Status.analyzed ∨ old = Status.error) ∧
    (∀ t ∈ (run ops st).1.tracks,
      t.status = Status.idle ∨ t.status = Status.analyzing ∨
      t.status = Status.analyzed ∨ t.status = Status.mastering ∨
      t.status = Status.done ∨ t.status = Status.error) := by
  refine ⟨run_masterEntriesOk ops st hg, ?_⟩
  intro t _
  cases t.status <;> simp

/-- Witness for the amended C1: a guarded import–analyze–master sequence in
which the mastering entry departs from `analyzed`. -/
theorem status_machine_closure_guarded_witness :
    Ev.status 1 Status.analyzed Status.mastering ∈
      (run [(envOk, Op.addTracks ["a.wav"]), (envOk, Op.analyzeAll),
        (envOk, Op.masterAll)] initState).2 ∧
    (Status.analyzed = Status.analyzed ∨ Status.analyzed = Status.error) := by
  have hmem : Ev.status 1 Status.analyzed Status.mastering ∈
      (run [(envOk, Op.addTracks ["a.wav"]), (envOk, Op.analyzeAll),
        (envOk, Op.masterAll)] initState).2 := by decide
  refine ⟨hmem, ?_⟩
  exact (status_machine_closure_guarded
    [(envOk, Op.addTracks ["a.wav"]), (envOk, Op.analyzeAll),
      (envOk, Op.masterAll)] initState
    ⟨trivial, trivial, trivial, trivial⟩).1 1 Status.analyzed hmem

/-- Counterexample to C1 as stated: calling the exposed `masterSelected` on
a freshly imported (still `idle`) selected track makes that track enter
`mastering` directly from `idle`. -/
theorem mastering_entered_from_idle_counterexample :
    Ev.status 1 Status.idle Status.mastering ∈
      (run [(envOk, Op.addTracks ["a.wav"]), (envOk, Op.masterSelected none)]
        initState).2 := by decide

end AudioMaster
